import Mathlib

unseal List.merge List.mergeSort

/-!
Shallow embedding of the `cipher_tools` repository: a PKCS#7-style block
padding scheme (`src/padding/pkcs7.rs`), a keyed columnar transposition
cipher (`src/cipher/transposition_cipher.rs`) and a keyed monoalphabetic
substitution cipher (`src/cipher/substitution_cipher.rs`).

Conventions of the embedding:
- bytes are `Nat`s; the Rust casts are modelled by explicit moduli where
  they occur: `as u8` is `% 256` (`block_size as u8`, the padding value
  cast) and the truncating `as u32` is `% 2 ^ 32` (`data.len() as u32` in
  `apply_padding`, `key.len() as u32` at the two transposition call
  sites);
- fallible operations return `Except`;
- operations whose Rust source contains an unchecked slice index or an
  unchecked `usize` subtraction (which panic when out of bounds/underflow)
  are additionally wrapped in `Option`: `none` models a panic
  (`validate_padding`, `strip_padding`, and transposition `decrypt`, which
  calls `strip_padding`);
- Rust `for` loops over vectors become structural recursions over lists,
  with the mutable state passed explicitly.
-/

/-- Error type of `src/padding/mod.rs` (`PaddingValidationError`). -/
inductive PaddingValidationError where
  | InvalidBlockLength : PaddingValidationError
  | PaddingError : String → PaddingValidationError
  | InvalidMessageLength : PaddingValidationError
  | ParameterError : String → PaddingValidationError
deriving DecidableEq, Repr

/-- Error type of `src/cipher/mod.rs` (`CipherOperationError`). -/
inductive CipherOperationError where
  | InvalidKeySize : Nat → CipherOperationError
  | PaddingValidationError : PaddingValidationError → CipherOperationError
  | InvalidEncryptedMessageLength : CipherOperationError
deriving DecidableEq, Repr

namespace Pkcs7Padding

/-- Embedding of `Pkcs7Padding::apply_padding` (`src/padding/pkcs7.rs`).
The Rust padding value is `(block_size - data.len() as u32 % block_size) as u8`:
the truncating `data.len() as u32` cast is the `% 2 ^ 32` and the `as u8`
cast is the `% 256`. -/
def apply_padding (data : List Nat) (block_size : Nat) :
    Except PaddingValidationError (List Nat) :=
  if data.isEmpty then
    Except.error (PaddingValidationError.ParameterError ("Data must not be empty"))
  else if block_size == 0 || block_size > 255 then
    Except.error (PaddingValidationError.ParameterError
      ("Block size must be greater than 0 and smaller than 256"))
  else
    let padding_value := (block_size - (data.length % 2 ^ 32) % block_size) % 256
    Except.ok (data ++ List.replicate padding_value padding_value)

/-- Embedding of `Pkcs7Padding::validate_padding` (`src/padding/pkcs7.rs`).
`none` models a Rust panic: the read `data[data.len() - 1]` on empty input,
and the `usize` underflow in `data.len() - padding_value as usize` when the
padding value exceeds the data length. -/
def validate_padding (data : List Nat) (block_size : Nat) :
    Option (Except PaddingValidationError Unit) :=
  match data[data.length - 1]? with
  | none => none
  | some padding_value =>
    if padding_value == 0 || padding_value > block_size then
      some (Except.error (PaddingValidationError.PaddingError
        ("Padding value must be greater than 0 and not greater than block size. Found: "
          ++ toString padding_value)))
    else if data.length < padding_value then
      none
    else
      let padding_start := data.length - padding_value
      if (List.drop padding_start data).all (fun byte => byte == padding_value) then
        some (Except.ok ())
      else
        some (Except.error (PaddingValidationError.PaddingError ("Padding content is invalid")))

/-- Embedding of `Pkcs7Padding::strip_padding` (`src/padding/pkcs7.rs`).
`none` models a Rust panic, either inside `validate_padding` or in the
`usize` subtraction `data.len() - padding_value as usize` of the final
slice. The call `validate_padding(data, block_size as u8)` passes the
block size through the `as u8` cast, modelled as `% 256`. -/
def strip_padding (data : List Nat) (block_size : Nat) :
    Option (Except PaddingValidationError (List Nat)) :=
  if data.isEmpty then
    some (Except.error (PaddingValidationError.ParameterError ("Data must not be empty")))
  else if block_size == 0 || block_size > 255 then
    some (Except.error (PaddingValidationError.ParameterError
      ("Block size must be greater than 0 and smaller than 256")))
  else if data.length % block_size != 0 then
    some (Except.error (PaddingValidationError.ParameterError
      ("Data length must be a multiple of block size")))
  else
    match validate_padding data (block_size % 256) with
    | none => none
    | some (Except.error e) => some (Except.error e)
    | some (Except.ok _) =>
      match data[data.length - 1]? with
      | none => none
      | some padding_value =>
        if data.length < padding_value then none
        else some (Except.ok (List.take (data.length - padding_value) data))

end Pkcs7Padding

namespace SubstitutionCipher

/-- Embedding of the alphabet built in `SubstitutionCipher::new`
(`src/cipher/substitution_cipher.rs`): the byte ranges
`b'A'..=b'Z'`, `b'a'..=b'z'`, `b'0'..=b'9'` concatenated. -/
def alphabet : List Nat :=
  ((List.range 26).map (fun i => 65 + i)) ++ ((List.range 26).map (fun i => 97 + i))
    ++ ((List.range 10).map (fun i => 48 + i))

/-- Embedding of `SubstitutionCipher::substitute`. `iter().position` is
`List.findIdx?`. The Rust read `key[position]` is in bounds because both
callers check `key.len() == alphabet.len()` and `position < alphabet.len()`
always holds; it is rendered with `getD`. -/
def substitute (text key : List Nat) : List Nat :=
  text.map (fun ch =>
    match alphabet.findIdx? (fun x => x == ch) with
    | some position => key.getD position 0
    | none => ch)

/-- Embedding of `SubstitutionCipher::encrypt`. -/
def encrypt (plain key : List Nat) : Except CipherOperationError (List Nat) :=
  if key.length != alphabet.length then
    Except.error (CipherOperationError.InvalidKeySize key.length)
  else
    Except.ok (substitute plain key)

/-- Embedding of the reverse-key construction inside
`SubstitutionCipher::decrypt`: start from `vec![0; key.len()]` and, for
each `(i, byte)` of `key.iter().enumerate()`, if `byte` occurs in the
alphabet at `position`, set `reverse_key[position] = alphabet[i]`.
The read `alphabet[i]` is in bounds because `i < key.len() = alphabet.len()`
at the call site; it is rendered with `getD`. -/
def build_reverse_key (key : List Nat) : List Nat :=
  (key.enum).foldl
    (fun reverse_key p =>
      match alphabet.findIdx? (fun x => x == p.2) with
      | some position => reverse_key.set position (alphabet.getD p.1 0)
      | none => reverse_key)
    (List.replicate key.length 0)

/-- The fold of `build_reverse_key` over an arbitrary enumerated prefix,
as a structural recursion so the loop can be reasoned about by induction;
`build_reverse_key key` equals `rk_fold key.enum (List.replicate key.length 0)`
(`build_reverse_key_eq`). -/
def rk_fold : List (Nat × Nat) → List Nat → List Nat
  | [], rk => rk
  | p :: t, rk =>
      rk_fold t
        (match alphabet.findIdx? (fun x => x == p.2) with
         | some position => rk.set position (alphabet.getD p.1 0)
         | none => rk)

/-- Embedding of `SubstitutionCipher::decrypt`. -/
def decrypt (encrypted key : List Nat) : Except CipherOperationError (List Nat) :=
  if key.length != alphabet.length then
    Except.error (CipherOperationError.InvalidKeySize key.length)
  else
    Except.ok (substitute encrypted (build_reverse_key key))

end SubstitutionCipher

/-- Recursion core of `chunksOf`, structural on a fuel argument. Each step
consumes at least one element of the list, so any fuel at least the list
length gives the same result (`chunksOfGo_fuel_irrelevant`); the `0, _ :: _`
case is unreachable from `chunksOf`. -/
def chunksOfGo (column_size : Nat) : Nat → List Nat → List (List Nat)
  | _, [] => []
  | 0, _ :: _ => []
  | fuel + 1, x :: xs =>
      List.take column_size (x :: xs) :: chunksOfGo column_size fuel (List.drop (column_size - 1) xs)

/-- Embedding of `data.chunks(column_size)` as used by
`create_transposition_matrix` (`src/cipher/transposition_cipher.rs`):
successive sub-slices of length `column_size`, the last one possibly
shorter. Rust `chunks` panics when `column_size == 0`; the sole caller
passes `key.len() ≥ 1`. For `column_size ≥ 1` every recursive step drops
exactly `column_size` elements: `drop (column_size - 1) xs` is
`drop column_size (x :: xs)`. -/
def chunksOf (column_size : Nat) (data : List Nat) : List (List Nat) :=
  chunksOfGo column_size data.length data

/-- Embedding of `create_transposition_matrix`
(`src/cipher/transposition_cipher.rs`): each chunk is copied into a fresh
row `vec![0; column_size]`, i.e. right-padded with zeros to `column_size`. -/
def create_transposition_matrix (data : List Nat) (column_size : Nat) : List (List Nat) :=
  (chunksOf column_size data).map (fun chunk => chunk ++ List.replicate (column_size - chunk.length) 0)

/-- Embedding of `get_sorted_key_indices`
(`src/cipher/transposition_cipher.rs`): enumerate the key, sort the
`(index, value)` pairs by value with Rust's stable `sort_by_key`
(`List.mergeSort` is stable), and keep the indices. -/
def get_sorted_key_indices (key : List Nat) : List Nat :=
  ((key.enum).mergeSort (fun a b => a.2 ≤ b.2)).map (fun p => p.1)

/-- Modelled from the spec's words, for comparison with
`get_sorted_key_indices` (claim C4): the indices `0..key.len()` sorted by
ascending key byte value with ties kept in original index order, i.e.
sorted by the total lexicographic order (key value, index). -/
def spec_sorted_key_indices (key : List Nat) : List Nat :=
  (List.range key.length).mergeSort (fun i j =>
    key.getD i 0 < key.getD j 0 || (key.getD i 0 == key.getD j 0 && i ≤ j))

/-- The total lexicographic order (key value, index) on column indices: the
order in which claim C4 says the sorted key indices are arranged. -/
def key_lex (key : List Nat) (i j : Nat) : Prop :=
  key.getD i 0 < key.getD j 0 ∨ (key.getD i 0 = key.getD j 0 ∧ i ≤ j)

/-- Matrix cell access with defaults, `matrix[row][col]` as a total
function; used to reason about the transposition matrices. -/
def mget (matrix : List (List Nat)) (row col : Nat) : Nat :=
  (matrix.getD row []).getD col 0

namespace TranspositionCipher

/-- Embedding of `TranspositionCipher::encrypt`
(`src/cipher/transposition_cipher.rs`), with the `Pkcs7Padding` strategy
the binary installs. The block size is passed as `key.len() as u32`,
modelled as `% 2 ^ 32`; the matrix width is the uncast `key.len()`.
The read `row[index]` is in bounds because every row has length
`key.len()` and every sorted key index is below `key.len()`; it is
rendered with `getD`. -/
def encrypt (plaintext key : List Nat) : Except CipherOperationError (List Nat) :=
  if key.isEmpty then
    Except.error (CipherOperationError.InvalidKeySize 0)
  else
    match Pkcs7Padding.apply_padding plaintext (key.length % 2 ^ 32) with
    | Except.error e => Except.error (CipherOperationError.PaddingValidationError e)
    | Except.ok padded_data =>
      let matrix := create_transposition_matrix padded_data key.length
      let sorted_key_indices := get_sorted_key_indices key
      Except.ok (sorted_key_indices.flatMap (fun index => matrix.map (fun row => row.getD index 0)))

/-- Embedding of the inner loop `for row in 0..num_rows` of
`TranspositionCipher::decrypt`: write `encrypted_message[index]` into
`matrix[row][col_index]` and advance `index`, for each row of the list.
The reads are in bounds at the call site; they are rendered with `getD`,
and `List.set` ignores out-of-range positions exactly where the Rust
indexing could not be reached. -/
def fill_rows (encrypted_message : List Nat) (col_index : Nat) :
    List Nat → List (List Nat) → Nat → List (List Nat) × Nat
  | [], matrix, index => (matrix, index)
  | row :: rest, matrix, index =>
      fill_rows encrypted_message col_index rest
        (matrix.set row ((matrix.getD row []).set col_index (encrypted_message.getD index 0)))
        (index + 1)

/-- Embedding of the outer loop `for &col_index in &sorted_key_indices` of
`TranspositionCipher::decrypt`. -/
def fill_cols (encrypted_message : List Nat) (num_rows : Nat) :
    List Nat → List (List Nat) → Nat → List (List Nat)
  | [], matrix, _ => matrix
  | col_index :: rest, matrix, index =>
      let st := fill_rows encrypted_message col_index (List.range num_rows) matrix index
      fill_cols encrypted_message num_rows rest st.1 st.2

/-- Embedding of `TranspositionCipher::decrypt`
(`src/cipher/transposition_cipher.rs`), with the `Pkcs7Padding` strategy.
The length check uses the uncast `usize` key length; the block size handed
to `strip_padding` is `key_length as u32`, modelled as `% 2 ^ 32`. The
`Option` layer propagates the panic possibilities of `strip_padding`. -/
def decrypt (encrypted_message key : List Nat) :
    Option (Except CipherOperationError (List Nat)) :=
  if key.isEmpty then
    some (Except.error (CipherOperationError.InvalidKeySize 0))
  else
    let key_length := key.length
    if encrypted_message.length % key_length != 0 then
      some (Except.error CipherOperationError.InvalidEncryptedMessageLength)
    else
      let num_rows := encrypted_message.length / key_length
      let matrix0 : List (List Nat) := List.replicate num_rows (List.replicate key_length 0)
      let sorted_key_indices := get_sorted_key_indices key
      let matrix := fill_cols encrypted_message num_rows sorted_key_indices matrix0 0
      match Pkcs7Padding.strip_padding matrix.flatten (key_length % 2 ^ 32) with
      | none => none
      | some (Except.error e) =>
          some (Except.error (CipherOperationError.PaddingValidationError e))
      | some (Except.ok plain) => some (Except.ok plain)

/-- The composition `decrypt(encrypt(P, K), K)` of the transposition
cipher, propagating an encryption error unchanged (claim C1). -/
def roundtrip (plaintext key : List Nat) :
    Option (Except CipherOperationError (List Nat)) :=
  match encrypt plaintext key with
  | Except.error e => some (Except.error e)
  | Except.ok c => decrypt c key

end TranspositionCipher

/-! ### Helper lemmas about the padding embedding -/

theorem last_getElem?_of_ne_nil (data : List Nat) (hne : data ≠ []) :
    data[data.length - 1]? = some (data.getD (data.length - 1) 0) := by
  have hlt : data.length - 1 < data.length := by
    cases data with
    | nil => exact absurd rfl hne
    | cons x xs => simp
  rw [List.getElem?_eq_getElem hlt, List.getD_eq_getElem data 0 hlt]

theorem validate_padding_isSome (data : List Nat) (block_size : Nat)
    (hne : data ≠ []) (hbs : block_size ≤ data.length) :
    (Pkcs7Padding.validate_padding data block_size).isSome = true := by
  unfold Pkcs7Padding.validate_padding
  rw [last_getElem?_of_ne_nil data hne]
  set pv := data.getD (data.length - 1) 0 with hpv
  by_cases h0 : (pv == 0 || pv > block_size) = true
  · simp [h0]
  · have hle : pv ≤ block_size := by
      simp only [Bool.or_eq_true, beq_iff_eq, decide_eq_true_eq] at h0
      omega
    have hnl : ¬ data.length < pv := by omega
    simp only [h0, Bool.false_eq_true, if_false, hnl, if_neg, if_true]
    split <;> simp

theorem validate_padding_error_shape (data : List Nat) (block_size : Nat)
    (e : PaddingValidationError)
    (h : Pkcs7Padding.validate_padding data block_size = some (Except.error e)) :
    ∃ s, e = PaddingValidationError.PaddingError s := by
  unfold Pkcs7Padding.validate_padding at h
  cases hget : data[data.length - 1]? with
  | none => rw [hget] at h; exact absurd h (by simp)
  | some pv =>
    rw [hget] at h
    dsimp only at h
    by_cases h0 : (pv == 0 || pv > block_size) = true
    · rw [if_pos h0] at h
      exact ⟨_, (by injection h with h2; injection h2 with h3; exact h3.symm)⟩
    · rw [if_neg h0] at h
      by_cases h1 : data.length < pv
      · rw [if_pos h1] at h; exact absurd h (by simp)
      · rw [if_neg h1] at h
        by_cases h2 : (List.drop (data.length - pv) data).all (fun byte => byte == pv) = true
        · rw [if_pos h2] at h; exact absurd h (by simp)
        · rw [if_neg h2] at h
          exact ⟨_, (by injection h with h3; injection h3 with h4; exact h4.symm)⟩

theorem validate_padding_ok_bounds (data : List Nat) (block_size : Nat) (pv : Nat)
    (hget : data[data.length - 1]? = some pv)
    (h : Pkcs7Padding.validate_padding data block_size = some (Except.ok ())) :
    1 ≤ pv ∧ pv ≤ block_size ∧ pv ≤ data.length ∧
      (List.drop (data.length - pv) data).all (fun byte => byte == pv) = true := by
  unfold Pkcs7Padding.validate_padding at h
  rw [hget] at h
  dsimp only at h
  by_cases h0 : (pv == 0 || pv > block_size) = true
  · rw [if_pos h0] at h; exact absurd h (by simp)
  · rw [if_neg h0] at h
    by_cases h1 : data.length < pv
    · rw [if_pos h1] at h; exact absurd h (by simp)
    · rw [if_neg h1] at h
      simp only [Bool.or_eq_true, beq_iff_eq, decide_eq_true_eq] at h0
      by_cases h2 : (List.drop (data.length - pv) data).all (fun byte => byte == pv) = true
      · exact ⟨by omega, by omega, by omega, h2⟩
      · rw [if_neg h2] at h; exact absurd h (by simp)

theorem not_isEmpty_of_ne_nil {data : List Nat} (h : data ≠ []) : ¬ data.isEmpty = true := by
  cases data with
  | nil => exact absurd rfl h
  | cons x xs => simp

theorem apply_padding_eq (data : List Nat) (block_size : Nat)
    (hdata : data ≠ []) (hbs1 : 1 ≤ block_size) (hbs2 : block_size ≤ 255) :
    Pkcs7Padding.apply_padding data block_size =
      Except.ok (data ++ List.replicate
        (block_size - (data.length % 2 ^ 32) % block_size)
        (block_size - (data.length % 2 ^ 32) % block_size)) := by
  have hmod : (data.length % 2 ^ 32) % block_size < block_size := Nat.mod_lt _ (by omega)
  unfold Pkcs7Padding.apply_padding
  rw [if_neg (not_isEmpty_of_ne_nil hdata),
    if_neg (by simp only [Bool.or_eq_true, beq_iff_eq, decide_eq_true_eq]; omega)]
  simp only [Nat.mod_eq_of_lt
    (show block_size - (data.length % 2 ^ 32) % block_size < 256 by omega)]


/-- Claim C10: although `validate_padding` reads `data[data.len() - 1]` and
slices the trailing bytes without its own bounds checks, `strip_padding`'s
preceding parameter checks together with the validated padding-value range
guarantee every index is in bounds and no `usize` subtraction underflows,
so `strip_padding` never panics: the embedding never returns `none`. -/
theorem strip_padding_never_panics (data : List Nat) (block_size : Nat) :
    (Pkcs7Padding.strip_padding data block_size).isSome = true := by
  unfold Pkcs7Padding.strip_padding
  by_cases hemp : data.isEmpty = true
  · rw [if_pos hemp]; rfl
  · rw [if_neg hemp]
    by_cases hbs : (block_size == 0 || block_size > 255) = true
    · rw [if_pos hbs]; rfl
    · rw [if_neg hbs]
      by_cases hmod : (data.length % block_size != 0) = true
      · rw [if_pos hmod]; rfl
      · rw [if_neg hmod]
        have hne : data ≠ [] := by
          intro hnil; exact hemp (by simp [hnil])
        have hbs' : 1 ≤ block_size ∧ block_size ≤ 255 := by
          simp only [Bool.or_eq_true, beq_iff_eq, decide_eq_true_eq] at hbs
          omega
        have hmod' : data.length % block_size = 0 := by
          simpa using hmod
        have hpos : 0 < data.length := List.length_pos.mpr hne
        have hlen : block_size ≤ data.length :=
          Nat.le_of_dvd hpos (Nat.dvd_of_mod_eq_zero hmod')
        obtain ⟨r, hr⟩ := Option.isSome_iff_exists.mp
          (validate_padding_isSome data (block_size % 256) hne (by omega))
        rw [hr]
        cases r with
        | error e => rfl
        | ok u =>
          cases u
          obtain ⟨h1, h2, h3, h4⟩ := validate_padding_ok_bounds data (block_size % 256)
            (data.getD (data.length - 1) 0) (last_getElem?_of_ne_nil data hne) hr
          dsimp only
          rw [last_getElem?_of_ne_nil data hne]
          dsimp only
          rw [if_neg (by omega)]
          rfl

/-- Claim C2, amended: for every non-empty `data` and every `block_length`
with `1 ≤ block_length ≤ 255`, `apply_padding` returns `data` followed by
exactly `n` trailing bytes each equal to `n`, where `n` is computed from
the 32-bit truncated length the program uses
(`data.len() as u32`): `n = block_length - ((len(data) mod 2^32) mod
block_length)`; `n` always lies in `[1, block_length]`, a full extra block
is appended when the truncated length is a multiple of `block_length`, and
for data shorter than `2^32` bytes `n` coincides with the claim's
`block_length - (len(data) mod block_length)`. -/
theorem apply_padding_appends (data : List Nat) (block_size n : Nat)
    (hdata : data ≠ []) (hbs1 : 1 ≤ block_size) (hbs2 : block_size ≤ 255)
    (hn : n = block_size - (data.length % 2 ^ 32) % block_size) :
    Pkcs7Padding.apply_padding data block_size =
      Except.ok (data ++ List.replicate n n) ∧
    1 ≤ n ∧ n ≤ block_size ∧
    ((data.length % 2 ^ 32) % block_size = 0 → n = block_size) ∧
    (data.length < 2 ^ 32 → n = block_size - data.length % block_size) := by
  have hmod : (data.length % 2 ^ 32) % block_size < block_size := Nat.mod_lt _ (by omega)
  refine ⟨?_, by omega, by omega, by omega, ?_⟩
  · rw [apply_padding_eq data block_size hdata hbs1 hbs2, hn]
  · intro h32
    rw [hn, Nat.mod_eq_of_lt h32]

/-- Witness for the amended C2 at the repository's own test vector
`apply_padding([1,2,3], 4) == [1,2,3,1]`. -/
theorem apply_padding_appends_witness :
    Pkcs7Padding.apply_padding [1, 2, 3] 4 =
      Except.ok ([1, 2, 3] ++ List.replicate 1 1) ∧
    1 ≤ 1 ∧ 1 ≤ 4 ∧
    ((([1, 2, 3] : List Nat).length % 2 ^ 32) % 4 = 0 → 1 = 4) ∧
    (([1, 2, 3] : List Nat).length < 2 ^ 32 →
      1 = 4 - ([1, 2, 3] : List Nat).length % 4) :=
  apply_padding_appends [1, 2, 3] 4 1 (by decide) (by decide) (by decide) (by decide)

/-- Counterexample to claim C2 as stated: at `data = replicate (2 ^ 32) 1`
and `block_length = 3` the program truncates the length with
`data.len() as u32`, computes remainder `0`, and appends three bytes of
value `3`; the claim's `N = 3 - (2 ^ 32 mod 3) = 2` (two bytes of value
`2`) is not what is returned. -/
theorem apply_padding_appends_cex :
    Pkcs7Padding.apply_padding (List.replicate (2 ^ 32) 1) 3 =
      Except.ok (List.replicate (2 ^ 32) 1 ++ List.replicate 3 3) ∧
    3 - (List.replicate (2 ^ 32) (1 : Nat)).length % 3 = 2 ∧
    Pkcs7Padding.apply_padding (List.replicate (2 ^ 32) 1) 3 ≠
      Except.ok (List.replicate (2 ^ 32) 1 ++ List.replicate 2 2) := by
  have hPlen : (List.replicate (2 ^ 32) (1 : Nat)).length = 2 ^ 32 :=
    List.length_replicate _ _
  have hPne : (List.replicate (2 ^ 32) (1 : Nat)) ≠ [] := by
    intro h
    have h2 := congrArg List.length h
    rw [hPlen] at h2
    exact absurd h2 (by decide)
  have happ : Pkcs7Padding.apply_padding (List.replicate (2 ^ 32) 1) 3 =
      Except.ok (List.replicate (2 ^ 32) 1 ++ List.replicate 3 3) := by
    rw [apply_padding_eq _ 3 hPne (by decide) (by decide), hPlen]
    norm_num
  refine ⟨happ, by rw [hPlen]; decide, ?_⟩
  rw [happ]
  intro hcon
  injection hcon with hcon2
  have h3 := congrArg List.length hcon2
  simp only [List.length_append, List.length_replicate] at h3
  omega

theorem strip_padding_no_parameter_error (data : List Nat) (block_size : Nat)
    (hne : data ≠ []) (hbs1 : 1 ≤ block_size) (hbs2 : block_size ≤ 255)
    (hmod : data.length % block_size = 0) (s : String) :
    Pkcs7Padding.strip_padding data block_size ≠
      some (Except.error (PaddingValidationError.ParameterError s)) := by
  unfold Pkcs7Padding.strip_padding
  rw [if_neg (not_isEmpty_of_ne_nil hne),
    if_neg (by simp only [Bool.or_eq_true, beq_iff_eq, decide_eq_true_eq]; omega),
    if_neg (by simp [hmod])]
  cases hv : Pkcs7Padding.validate_padding data (block_size % 256) with
  | none => simp
  | some r =>
    cases r with
    | error e =>
      obtain ⟨s', hs'⟩ := validate_padding_error_shape data (block_size % 256) e hv
      subst hs'
      intro hcon
      simp only [Option.some.injEq, Except.error.injEq] at hcon
      exact absurd hcon (by simp)
    | ok u =>
      cases u
      cases hget : data[data.length - 1]? with
      | none => simp
      | some pv =>
        dsimp only
        split <;> simp

/-- Claim C6: `apply_padding` fails with `ParameterError` exactly when the
data is empty, the block length is `0`, or the block length exceeds `255`;
`strip_padding` fails with `ParameterError` under exactly those conditions
plus a data length that is not a multiple of the block length. -/
theorem padding_parameter_error_iff (data : List Nat) (block_size : Nat) :
    ((∃ s, Pkcs7Padding.apply_padding data block_size =
        Except.error (PaddingValidationError.ParameterError s)) ↔
      (data = [] ∨ block_size = 0 ∨ 255 < block_size)) ∧
    ((∃ s, Pkcs7Padding.strip_padding data block_size =
        some (Except.error (PaddingValidationError.ParameterError s))) ↔
      (data = [] ∨ block_size = 0 ∨ 255 < block_size ∨
        ¬ data.length % block_size = 0)) := by
  constructor
  · constructor
    · rintro ⟨s, hs⟩
      by_contra hcon
      push_neg at hcon
      obtain ⟨hne, hbs0, hbs255⟩ := hcon
      unfold Pkcs7Padding.apply_padding at hs
      rw [if_neg (not_isEmpty_of_ne_nil hne),
        if_neg (by simp only [Bool.or_eq_true, beq_iff_eq, decide_eq_true_eq]; omega)] at hs
      exact absurd hs (by simp)
    · intro h
      unfold Pkcs7Padding.apply_padding
      by_cases hemp : data.isEmpty = true
      · rw [if_pos hemp]; exact ⟨_, rfl⟩
      · have hne : data ≠ [] := fun hnil => hemp (by simp [hnil])
        have hc : block_size = 0 ∨ 255 < block_size := by tauto
        rw [if_neg hemp,
          if_pos (by simp only [Bool.or_eq_true, beq_iff_eq, decide_eq_true_eq]; omega)]
        exact ⟨_, rfl⟩
  · constructor
    · rintro ⟨s, hs⟩
      by_contra hcon
      push_neg at hcon
      obtain ⟨hne, hbs0, hbs255, hmod⟩ := hcon
      exact strip_padding_no_parameter_error data block_size hne (by omega) (by omega) hmod s hs
    · intro h
      unfold Pkcs7Padding.strip_padding
      by_cases hemp : data.isEmpty = true
      · rw [if_pos hemp]; exact ⟨_, rfl⟩
      · have hne : data ≠ [] := fun hnil => hemp (by simp [hnil])
        rw [if_neg hemp]
        by_cases hbs : (block_size == 0 || block_size > 255) = true
        · rw [if_pos hbs]; exact ⟨_, rfl⟩
        · rw [if_neg hbs]
          have hmodn : ¬ data.length % block_size = 0 := by
            simp only [Bool.or_eq_true, beq_iff_eq, decide_eq_true_eq] at hbs
            rcases h with h | h | h | h
            · exact absurd h hne
            · omega
            · omega
            · exact h
          rw [if_pos (by simpa using hmodn)]
          exact ⟨_, rfl⟩

/-- Claim C3: for data whose length is a positive multiple of the block
length (with `1 ≤ block_length ≤ 255`), `strip_padding` fails with a
`PaddingError` when the last byte `p` is `0`, exceeds the block length, or
the trailing `p` bytes are not all equal to `p`; otherwise it succeeds and
returns `data[0 .. data.length - p]`. -/
theorem strip_padding_correct (data : List Nat) (block_size p : Nat)
    (hpos : 0 < data.length) (hmod : data.length % block_size = 0)
    (hbs1 : 1 ≤ block_size) (hbs2 : block_size ≤ 255)
    (hp : data.getD (data.length - 1) 0 = p) :
    ((p = 0 ∨ block_size < p ∨
        ¬ (List.drop (data.length - p) data).all (fun byte => byte == p) = true) →
      ∃ s, Pkcs7Padding.strip_padding data block_size =
        some (Except.error (PaddingValidationError.PaddingError s))) ∧
    ((1 ≤ p ∧ p ≤ block_size ∧
        (List.drop (data.length - p) data).all (fun byte => byte == p) = true) →
      Pkcs7Padding.strip_padding data block_size =
        some (Except.ok (List.take (data.length - p) data))) := by
  have hne : data ≠ [] := by
    intro h
    rw [h] at hpos
    simp at hpos
  have hlen : block_size ≤ data.length := Nat.le_of_dvd hpos (Nat.dvd_of_mod_eq_zero hmod)
  have h256 : block_size % 256 = block_size := Nat.mod_eq_of_lt (by omega)
  have hget : data[data.length - 1]? = some p := by
    rw [last_getElem?_of_ne_nil data hne, hp]
  constructor
  · intro hbad
    unfold Pkcs7Padding.strip_padding
    rw [if_neg (not_isEmpty_of_ne_nil hne),
      if_neg (by simp only [Bool.or_eq_true, beq_iff_eq, decide_eq_true_eq]; omega),
      if_neg (by simp [hmod]), h256]
    unfold Pkcs7Padding.validate_padding
    rw [hget]
    dsimp only
    by_cases h0 : (p == 0 || p > block_size) = true
    · rw [if_pos h0]
      exact ⟨_, rfl⟩
    · rw [if_neg h0]
      have hple : p ≤ block_size := by
        simp only [Bool.or_eq_true, beq_iff_eq, decide_eq_true_eq] at h0
        omega
      rw [if_neg (by omega)]
      have hcontent : ¬ (List.drop (data.length - p) data).all (fun byte => byte == p) = true := by
        simp only [Bool.or_eq_true, beq_iff_eq, decide_eq_true_eq] at h0
        rcases hbad with h | h | h
        · omega
        · omega
        · exact h
      rw [if_neg hcontent]
      exact ⟨_, rfl⟩
  · rintro ⟨hp1, hp2, hall⟩
    unfold Pkcs7Padding.strip_padding
    rw [if_neg (not_isEmpty_of_ne_nil hne),
      if_neg (by simp only [Bool.or_eq_true, beq_iff_eq, decide_eq_true_eq]; omega),
      if_neg (by simp [hmod]), h256]
    unfold Pkcs7Padding.validate_padding
    rw [hget]
    dsimp only
    rw [if_neg (by simp only [Bool.or_eq_true, beq_iff_eq, decide_eq_true_eq]; omega),
      if_neg (by omega), if_pos hall]
    dsimp only
    rw [if_neg (by omega)]

/-- Witness for C3 at the repository's own test vector
`strip_padding([1,2,3,1], 4) == [1,2,3]`, together with a rejected input
`[1,2,3,0]` whose last byte is `0`. -/
theorem strip_padding_correct_witness :
    (∃ s, Pkcs7Padding.strip_padding [1, 2, 3, 0] 4 =
      some (Except.error (PaddingValidationError.PaddingError s))) ∧
    Pkcs7Padding.strip_padding [1, 2, 3, 1] 4 =
      some (Except.ok (List.take (([1, 2, 3, 1] : List Nat).length - 1) [1, 2, 3, 1])) :=
  ⟨(strip_padding_correct [1, 2, 3, 0] 4 0 (by decide) (by decide) (by decide) (by decide)
      (by decide)).1 (by decide),
    (strip_padding_correct [1, 2, 3, 1] 4 1 (by decide) (by decide) (by decide) (by decide)
      (by decide)).2 (by decide)⟩

/-! ### Helper lemmas about the substitution embedding -/

theorem getD_set_ne {α : Type} (l : List α) (i j : Nat) (v d : α) (h : i ≠ j) :
    (l.set i v).getD j d = l.getD j d := by
  rw [List.getD_eq_getElem?_getD, List.getD_eq_getElem?_getD, List.getElem?_set_ne h]

theorem getD_set_self {α : Type} (l : List α) (i : Nat) (v d : α) (h : i < l.length) :
    (l.set i v).getD i d = v := by
  rw [List.getD_eq_getElem?_getD, List.getElem?_set_self h]
  rfl

theorem alphabet_length_eq : SubstitutionCipher.alphabet.length = 62 := by rfl

theorem alphabet_nodup : SubstitutionCipher.alphabet.Nodup := by decide

theorem substitute_length (text key : List Nat) :
    (SubstitutionCipher.substitute text key).length = text.length := by
  simp [SubstitutionCipher.substitute]

theorem substitute_getD (text key : List Nat) (j : Nat) (hj : j < text.length) :
    (SubstitutionCipher.substitute text key).getD j 0 =
      match SubstitutionCipher.alphabet.findIdx? (fun x => x == text.getD j 0) with
      | some position => key.getD position 0
      | none => text.getD j 0 := by
  unfold SubstitutionCipher.substitute
  rw [List.getD_eq_getElem _ _ (show j < (text.map _).length by simpa using hj),
    List.getElem_map, List.getD_eq_getElem _ _ hj]

theorem build_reverse_key_eq_go (l : List (Nat × Nat)) (rk : List Nat) :
    l.foldl
      (fun reverse_key p =>
        match SubstitutionCipher.alphabet.findIdx? (fun x => x == p.2) with
        | some position => reverse_key.set position (SubstitutionCipher.alphabet.getD p.1 0)
        | none => reverse_key)
      rk = SubstitutionCipher.rk_fold l rk := by
  induction l generalizing rk with
  | nil => rfl
  | cons p t ih =>
    rw [List.foldl_cons]
    exact ih _

theorem build_reverse_key_eq (key : List Nat) :
    SubstitutionCipher.build_reverse_key key =
      SubstitutionCipher.rk_fold key.enum (List.replicate key.length 0) :=
  build_reverse_key_eq_go key.enum (List.replicate key.length 0)

theorem rk_fold_length (l : List (Nat × Nat)) (rk : List Nat) :
    (SubstitutionCipher.rk_fold l rk).length = rk.length := by
  induction l generalizing rk with
  | nil => rfl
  | cons p t ih =>
    cases hfd : SubstitutionCipher.alphabet.findIdx? (fun x => x == p.2) with
    | none =>
      simp only [SubstitutionCipher.rk_fold, hfd]
      exact ih rk
    | some q =>
      simp only [SubstitutionCipher.rk_fold, hfd]
      rw [ih _, List.length_set]

theorem rk_fold_not_hit (l : List (Nat × Nat)) (rk : List Nat) (j : Nat)
    (h : ∀ p ∈ l, SubstitutionCipher.alphabet.findIdx? (fun x => x == p.2) ≠ some j) :
    (SubstitutionCipher.rk_fold l rk).getD j 0 = rk.getD j 0 := by
  induction l generalizing rk with
  | nil => rfl
  | cons p t ih =>
    cases hfd : SubstitutionCipher.alphabet.findIdx? (fun x => x == p.2) with
    | none =>
      simp only [SubstitutionCipher.rk_fold, hfd]
      exact ih rk (fun q hq => h q (List.mem_cons_of_mem p hq))
    | some q =>
      simp only [SubstitutionCipher.rk_fold, hfd]
      rw [ih _ (fun q' hq' => h q' (List.mem_cons_of_mem p hq'))]
      exact getD_set_ne rk q j _ 0 (fun he => h p (List.mem_cons_self p t) (he ▸ hfd))

theorem findIdx?_some_unique (b b' : Nat) (j : Nat)
    (h1 : SubstitutionCipher.alphabet.findIdx? (fun x => x == b) = some j)
    (h2 : SubstitutionCipher.alphabet.findIdx? (fun x => x == b') = some j) :
    b = b' := by
  rw [List.findIdx?_eq_some_iff_getElem] at h1 h2
  obtain ⟨hj1, hb1, _⟩ := h1
  obtain ⟨hj2, hb2, _⟩ := h2
  rw [beq_iff_eq] at hb1 hb2
  rw [← hb1, ← hb2]

theorem rk_fold_write (l : List Nat) (n : Nat) (rk : List Nat) (j t : Nat)
    (ht : t < l.length)
    (hhit : SubstitutionCipher.alphabet.findIdx? (fun x => x == l.getD t 0) = some j)
    (hlater : ∀ u, t < u → u < l.length → l.getD u 0 ≠ l.getD t 0)
    (hj : j < rk.length) :
    (SubstitutionCipher.rk_fold (List.enumFrom n l) rk).getD j 0 =
      SubstitutionCipher.alphabet.getD (n + t) 0 := by
  induction l generalizing n rk t with
  | nil => exact absurd ht (by simp)
  | cons x xs ih =>
    rw [List.enumFrom_cons]
    cases t with
    | zero =>
      have hx : (x :: xs).getD 0 0 = x := rfl
      rw [hx] at hhit
      simp only [SubstitutionCipher.rk_fold, hhit]
      rw [rk_fold_not_hit]
      · rw [Nat.add_zero]
        exact getD_set_self rk j _ 0 hj
      · intro p hp hcon
        obtain ⟨_, _, hpx⟩ := List.mem_enumFrom hp
        have hpm : p.2 ∈ xs := hpx ▸ List.getElem_mem _
        obtain ⟨u, hu, hux⟩ := List.mem_iff_getElem.mp hpm
        have : xs.getD u 0 = p.2 := by rw [List.getD_eq_getElem _ _ hu, hux]
        have hne : p.2 ≠ x := by
          intro he
          exact hlater (u + 1) (by omega) (by simpa using hu)
            (by simpa [List.getD_cons_succ, this, he])
        exact hne (findIdx?_some_unique p.2 x j hcon hhit)
    | succ u =>
      have hstep : ∀ rk' : List Nat, rk'.length = rk.length →
          (SubstitutionCipher.rk_fold (List.enumFrom (n + 1) xs) rk').getD j 0 =
            SubstitutionCipher.alphabet.getD (n + (u + 1)) 0 := by
        intro rk' hlen'
        have := ih (n + 1) rk' u (by simpa using Nat.lt_of_succ_lt_succ ht)
          (by simpa [List.getD_cons_succ] using hhit)
          (fun v hv hv2 => by
            have := hlater (v + 1) (by omega) (by simpa using hv2)
            simpa [List.getD_cons_succ] using this)
          (by omega)
        rw [this]
        congr 1
        omega
      cases hfd : SubstitutionCipher.alphabet.findIdx? (fun x' => x' == x) with
      | none =>
        simp only [SubstitutionCipher.rk_fold, hfd]
        exact hstep rk rfl
      | some q =>
        simp only [SubstitutionCipher.rk_fold, hfd]
        exact hstep _ (List.length_set rk q _)

theorem encrypt_key_ok (plain key : List Nat) (h : key.length = 62) :
    SubstitutionCipher.encrypt plain key =
      Except.ok (SubstitutionCipher.substitute plain key) := by
  unfold SubstitutionCipher.encrypt
  rw [if_neg (by simp only [bne_iff_ne, ne_eq, not_not]; exact h.trans (by rfl))]

/-- Claim C8: substitution `encrypt` fails with `InvalidKeySize(key.len())`
exactly when the key length differs from the 62-symbol alphabet length; on
a 62-byte key it maps each input byte whose first occurrence in the
alphabet is at position `i` to `key[i]`, and emits every byte not in the
alphabet unchanged, position by position. -/
theorem substitution_encrypt_spec (plain key : List Nat) :
    SubstitutionCipher.alphabet.length = 62 ∧
    (key.length ≠ 62 →
      SubstitutionCipher.encrypt plain key =
        Except.error (CipherOperationError.InvalidKeySize key.length)) ∧
    (key.length = 62 →
      ∃ r, SubstitutionCipher.encrypt plain key = Except.ok r ∧
        r.length = plain.length ∧
        ∀ j, j < plain.length →
          ((∀ i, i < 62 → SubstitutionCipher.alphabet.getD i 0 = plain.getD j 0 →
              (∀ i', i' < i → SubstitutionCipher.alphabet.getD i' 0 ≠ plain.getD j 0) →
              r.getD j 0 = key.getD i 0) ∧
            (¬ plain.getD j 0 ∈ SubstitutionCipher.alphabet →
              r.getD j 0 = plain.getD j 0))) := by
  refine ⟨rfl, ?_, ?_⟩
  · intro hne
    unfold SubstitutionCipher.encrypt
    rw [if_pos (by simp only [bne_iff_ne, ne_eq]; exact fun h => hne (h.trans (by rfl)))]
  · intro h62
    refine ⟨SubstitutionCipher.substitute plain key, encrypt_key_ok plain key h62,
      substitute_length plain key, ?_⟩
    intro j hj
    constructor
    · intro i hi hali halii
      rw [substitute_getD plain key j hj]
      have hfind : SubstitutionCipher.alphabet.findIdx? (fun x => x == plain.getD j 0) =
          some i := by
        rw [List.findIdx?_eq_some_iff_getElem]
        refine ⟨by rw [alphabet_length_eq]; exact hi, ?_, ?_⟩
        · rw [beq_iff_eq, ← List.getD_eq_getElem _ 0 (by rw [alphabet_length_eq]; exact hi)]
          exact hali
        · intro i' hi'
          rw [beq_iff_eq,
            ← List.getD_eq_getElem _ 0 (by rw [alphabet_length_eq]; omega)]
          exact halii i' hi'
      rw [hfind]
    · intro hnotin
      rw [substitute_getD plain key j hj]
      have hfind : SubstitutionCipher.alphabet.findIdx? (fun x => x == plain.getD j 0) =
          none := by
        rw [List.findIdx?_eq_none_iff]
        intro x hx
        rw [beq_eq_false_iff_ne]
        exact fun he => hnotin (he ▸ hx)
      rw [hfind]

/-- Witness for C8: a 61-byte key is rejected with `InvalidKeySize(61)`, and
with a valid 62-byte key the letter `A` (byte 65, alphabet position 0) maps
to the key's first byte while a space (byte 32) passes through unchanged. -/
theorem substitution_encrypt_spec_witness :
    (SubstitutionCipher.encrypt [65, 32] (List.replicate 61 0) =
      Except.error (CipherOperationError.InvalidKeySize (List.replicate 61 0).length)) ∧
    (∃ r, SubstitutionCipher.encrypt [65, 32] SubstitutionCipher.alphabet.reverse =
        Except.ok r ∧
      r.length = ([65, 32] : List Nat).length ∧
      ∀ j, j < ([65, 32] : List Nat).length →
        ((∀ i, i < 62 →
            SubstitutionCipher.alphabet.getD i 0 = ([65, 32] : List Nat).getD j 0 →
            (∀ i', i' < i →
              SubstitutionCipher.alphabet.getD i' 0 ≠ ([65, 32] : List Nat).getD j 0) →
            r.getD j 0 = SubstitutionCipher.alphabet.reverse.getD i 0) ∧
          (¬ ([65, 32] : List Nat).getD j 0 ∈ SubstitutionCipher.alphabet →
            r.getD j 0 = ([65, 32] : List Nat).getD j 0))) :=
  ⟨(substitution_encrypt_spec [65, 32] (List.replicate 61 0)).2.1 (by decide),
    (substitution_encrypt_spec [65, 32] SubstitutionCipher.alphabet.reverse).2.2 (by rfl)⟩

theorem substitution_roundtrip_lists (key : List Nat)
    (hperm : key.Perm SubstitutionCipher.alphabet) (plain : List Nat) :
    SubstitutionCipher.substitute (SubstitutionCipher.substitute plain key)
      (SubstitutionCipher.build_reverse_key key) = plain := by
  have hlen : key.length = 62 := by rw [hperm.length_eq, alphabet_length_eq]
  have hnodup : key.Nodup := (hperm.nodup_iff).mpr alphabet_nodup
  unfold SubstitutionCipher.substitute
  rw [List.map_map]
  conv_rhs => rw [← List.map_id plain]
  apply List.map_congr_left
  intro ch hch
  show (match SubstitutionCipher.alphabet.findIdx?
      (fun x => x == match SubstitutionCipher.alphabet.findIdx? (fun x => x == ch) with
        | some position => key.getD position 0
        | none => ch) with
    | some position => (SubstitutionCipher.build_reverse_key key).getD position 0
    | none =>
        match SubstitutionCipher.alphabet.findIdx? (fun x => x == ch) with
        | some position => key.getD position 0
        | none => ch) = ch
  by_cases hmem : ch ∈ SubstitutionCipher.alphabet
  · obtain ⟨i, hfdi⟩ : ∃ i,
        SubstitutionCipher.alphabet.findIdx? (fun x => x == ch) = some i := by
      rw [← Option.isSome_iff_exists, List.findIdx?_isSome, List.any_eq_true]
      exact ⟨ch, hmem, by rw [beq_iff_eq]⟩
    obtain ⟨hilt, hieq, _⟩ := List.findIdx?_eq_some_iff_getElem.mp hfdi
    rw [beq_iff_eq] at hieq
    rw [hfdi]
    have hiklt : i < key.length := by rw [hlen, ← alphabet_length_eq]; exact hilt
    have hbmem : key.getD i 0 ∈ SubstitutionCipher.alphabet := by
      rw [List.getD_eq_getElem _ _ hiklt]
      exact hperm.mem_iff.mp (List.getElem_mem hiklt)
    obtain ⟨j, hfdj⟩ : ∃ j,
        SubstitutionCipher.alphabet.findIdx? (fun x => x == key.getD i 0) = some j := by
      rw [← Option.isSome_iff_exists, List.findIdx?_isSome, List.any_eq_true]
      exact ⟨key.getD i 0, hbmem, by rw [beq_iff_eq]⟩
    obtain ⟨hjlt, _, _⟩ := List.findIdx?_eq_some_iff_getElem.mp hfdj
    rw [hfdj, build_reverse_key_eq, List.enum_eq_enumFrom]
    dsimp only
    rw [rk_fold_write key 0 (List.replicate key.length 0) j i hiklt hfdj
        (fun u hu1 hu2 hcon => by
          rw [List.getD_eq_getElem _ _ hu2, List.getD_eq_getElem _ _ hiklt] at hcon
          exact absurd ((hnodup.getElem_inj_iff).mp hcon) (by omega))
        (by rw [List.length_replicate, hlen, ← alphabet_length_eq]; exact hjlt)]
    rw [Nat.zero_add, List.getD_eq_getElem _ _ hilt]
    exact hieq
  · have hfd : SubstitutionCipher.alphabet.findIdx? (fun x => x == ch) = none := by
      rw [List.findIdx?_eq_none_iff]
      intro x hx
      rw [beq_eq_false_iff_ne]
      exact fun he => hmem (he ▸ hx)
    rw [hfd, hfd]

/-- Claim C9: for every plaintext and every key that is a true permutation
of the 62-symbol alphabet, substitution decryption inverts encryption:
`decrypt(encrypt(P, K), K) == P`. -/
theorem substitution_roundtrip (plain key : List Nat)
    (hperm : key.Perm SubstitutionCipher.alphabet) :
    ∃ c, SubstitutionCipher.encrypt plain key = Except.ok c ∧
      SubstitutionCipher.decrypt c key = Except.ok plain := by
  have hlen : key.length = 62 := by rw [hperm.length_eq, alphabet_length_eq]
  refine ⟨SubstitutionCipher.substitute plain key, encrypt_key_ok plain key hlen, ?_⟩
  unfold SubstitutionCipher.decrypt
  rw [if_neg (by simp only [bne_iff_ne, ne_eq, not_not]; exact hlen.trans (by rfl))]
  rw [substitution_roundtrip_lists key hperm plain]

/-- Witness for C9 with the reversed alphabet as the permutation key and a
plaintext mixing alphabet bytes (`A`, `b`) with a pass-through byte (`!`). -/
theorem substitution_roundtrip_witness :
    ∃ c, SubstitutionCipher.encrypt [65, 33, 98] SubstitutionCipher.alphabet.reverse =
        Except.ok c ∧
      SubstitutionCipher.decrypt c SubstitutionCipher.alphabet.reverse =
        Except.ok [65, 33, 98] :=
  substitution_roundtrip [65, 33, 98] SubstitutionCipher.alphabet.reverse
    (List.reverse_perm SubstitutionCipher.alphabet)

/-! ### Helper lemmas about the transposition embedding -/

/-- Claim C7: for every non-empty key and every ciphertext whose length is
not a multiple of the key length, transposition `decrypt` fails with
`InvalidEncryptedMessageLength`. -/
theorem decrypt_invalid_length (c key : List Nat) (hk : key ≠ [])
    (hlen : c.length % key.length ≠ 0) :
    TranspositionCipher.decrypt c key =
      some (Except.error CipherOperationError.InvalidEncryptedMessageLength) := by
  unfold TranspositionCipher.decrypt
  rw [if_neg (not_isEmpty_of_ne_nil hk)]
  dsimp only
  rw [if_pos (by simpa using hlen)]

/-- Witness for C7: a one-byte ciphertext with a two-byte key. -/
theorem decrypt_invalid_length_witness :
    TranspositionCipher.decrypt [1] [1, 2] =
      some (Except.error CipherOperationError.InvalidEncryptedMessageLength) :=
  decrypt_invalid_length [1] [1, 2] (by decide) (by decide)

theorem sublist_pair_dichotomy {α : Type} {l : List α} {a b : α}
    (ha : a ∈ l) (hb : b ∈ l) (hne : a ≠ b) :
    [a, b].Sublist l ∨ [b, a].Sublist l := by
  induction l with
  | nil => simp at ha
  | cons x t ih =>
    rcases List.mem_cons.mp ha with he | ha'
    · left
      subst he
      have hb' : b ∈ t := by
        rcases List.mem_cons.mp hb with he' | h
        · exact absurd he'.symm hne
        · exact h
      exact List.cons_sublist_cons.mpr (List.singleton_sublist.mpr hb')
    · rcases List.mem_cons.mp hb with he | hb'
      · right
        subst he
        exact List.cons_sublist_cons.mpr (List.singleton_sublist.mpr ha')
      · rcases ih ha' hb' with h | h
        · exact Or.inl (h.cons x)
        · exact Or.inr (h.cons x)

theorem sublist_pair_antisymm {α : Type} {a b : α} (hne : a ≠ b) :
    ∀ {l : List α}, l.Nodup → [a, b].Sublist l → [b, a].Sublist l → False := by
  intro l
  induction l with
  | nil => intro _ h1 _; simp at h1
  | cons x t ih =>
    intro hn h1 h2
    have hxt : x ∉ t := (List.nodup_cons.mp hn).1
    have hnt : t.Nodup := (List.nodup_cons.mp hn).2
    cases h1 with
    | cons _ h1' =>
      cases h2 with
      | cons _ h2' => exact ih hnt h1' h2'
      | cons₂ _ h2' =>
        exact hxt (h1'.subset (by simp))
    | cons₂ _ h1' =>
      cases h2 with
      | cons _ h2' =>
        exact hxt (h2'.subset (by simp))
      | cons₂ _ h2' => exact hne rfl

theorem enum_pairwise_fst_lt (l : List Nat) :
    l.enum.Pairwise (fun p q => p.1 < q.1) := by
  have h := List.pairwise_lt_range l.length
  rw [← List.enum_map_fst l] at h
  exact (List.pairwise_map).mp h

theorem enum_nodup (l : List Nat) : l.enum.Nodup :=
  (enum_pairwise_fst_lt l).imp (fun h he => by rw [he] at h; omega)

theorem mem_enum_facts (key : List Nat) (p : Nat × Nat) (hp : p ∈ key.enum) :
    p.1 < key.length ∧ p.2 = key.getD p.1 0 := by
  obtain ⟨i, v⟩ := p
  rw [List.enum_eq_enumFrom] at hp
  obtain ⟨_, h2, h3⟩ := List.mem_enumFrom hp
  rw [Nat.zero_add] at h2
  refine ⟨h2, ?_⟩
  rw [h3]
  rw [List.getD_eq_getElem _ _ (by simpa using h2)]
  rfl

theorem byValue_trans : ∀ a b c : Nat × Nat,
    (fun a b : Nat × Nat => decide (a.2 ≤ b.2)) a b = true →
    (fun a b : Nat × Nat => decide (a.2 ≤ b.2)) b c = true →
    (fun a b : Nat × Nat => decide (a.2 ≤ b.2)) a c = true := by
  intro a b c h1 h2
  simp only [decide_eq_true_eq] at h1 h2 ⊢
  omega

theorem byValue_total : ∀ a b : Nat × Nat,
    ((fun a b : Nat × Nat => decide (a.2 ≤ b.2)) a b ||
      (fun a b : Nat × Nat => decide (a.2 ≤ b.2)) b a) = true := by
  intro a b
  simp only [Bool.or_eq_true, decide_eq_true_eq]
  omega

theorem sorted_key_indices_pairwise (key : List Nat) :
    (get_sorted_key_indices key).Pairwise (key_lex key) := by
  unfold get_sorted_key_indices
  rw [List.pairwise_map, List.pairwise_iff_forall_sublist]
  intro a b hab
  have hperm := List.mergeSort_perm key.enum (fun a b : Nat × Nat => a.2 ≤ b.2)
  have hsorted := List.sorted_mergeSort byValue_trans byValue_total key.enum
  have hval : a.2 ≤ b.2 := by
    simpa using List.pairwise_iff_forall_sublist.mp hsorted hab
  have hamem : a ∈ key.enum := hperm.subset (hab.subset (by simp))
  have hbmem : b ∈ key.enum := hperm.subset (hab.subset (by simp))
  obtain ⟨halt, hav⟩ := mem_enum_facts key a hamem
  obtain ⟨hblt, hbv⟩ := mem_enum_facts key b hbmem
  unfold key_lex
  rw [← hav, ← hbv]
  rcases Nat.lt_or_ge a.2 b.2 with hlt | hge
  · exact Or.inl hlt
  · have heq : a.2 = b.2 := by omega
    refine Or.inr ⟨heq, ?_⟩
    by_cases hab_eq : a = b
    · rw [hab_eq]
    · rcases sublist_pair_dichotomy hamem hbmem hab_eq with h | h
      · exact Nat.le_of_lt (List.pairwise_iff_forall_sublist.mp (enum_pairwise_fst_lt key) h)
      · exfalso
        have hba : [b, a].Sublist (key.enum.mergeSort (fun a b : Nat × Nat => a.2 ≤ b.2)) := by
          apply List.sublist_mergeSort byValue_trans byValue_total _ h
          refine List.Pairwise.cons ?_ (List.pairwise_singleton _ _)
          intro d hd
          rw [List.mem_singleton] at hd
          subst hd
          simp only [decide_eq_true_eq]
          omega
        have hnod : (key.enum.mergeSort (fun a b : Nat × Nat => a.2 ≤ b.2)).Nodup :=
          (hperm.nodup_iff).mpr (enum_nodup key)
        exact sublist_pair_antisymm hab_eq hnod hab hba

theorem spec_sorted_key_indices_pairwise (key : List Nat) :
    (spec_sorted_key_indices key).Pairwise (key_lex key) := by
  unfold spec_sorted_key_indices
  have h := @List.sorted_mergeSort Nat
    (fun i j =>
      key.getD i 0 < key.getD j 0 || (key.getD i 0 == key.getD j 0 && i ≤ j))
    (fun a b c h1 h2 => by
      simp only [Bool.or_eq_true, Bool.and_eq_true, beq_iff_eq, decide_eq_true_eq] at h1 h2 ⊢
      omega)
    (fun a b => by
      simp only [Bool.or_eq_true, Bool.and_eq_true, beq_iff_eq, decide_eq_true_eq]
      omega)
    (List.range key.length)
  exact h.imp (fun hab => by
    simp only [Bool.or_eq_true, Bool.and_eq_true, beq_iff_eq, decide_eq_true_eq] at hab
    unfold key_lex
    omega)

theorem get_sorted_key_indices_perm (key : List Nat) :
    (get_sorted_key_indices key).Perm (List.range key.length) := by
  unfold get_sorted_key_indices
  have h := (List.mergeSort_perm key.enum (fun a b : Nat × Nat => a.2 ≤ b.2)).map Prod.fst
  rw [List.enum_map_fst] at h
  exact h

/-- Claim C4: for every key, `get_sorted_key_indices` returns exactly the
indices `0..key.len()` sorted by ascending key byte value with ties kept in
original index order (the stable order, formalised as `spec_sorted_key_indices`,
a merge sort of `0..key.len()` by the total lexicographic order
(key value, index)); in particular the result is always a permutation of
`0..key.len()`. -/
theorem sorted_key_indices_spec (key : List Nat) :
    get_sorted_key_indices key = spec_sorted_key_indices key ∧
    (get_sorted_key_indices key).Perm (List.range key.length) := by
  have hanti : IsAntisymm Nat (key_lex key) := by
    constructor
    intro i j h1 h2
    unfold key_lex at h1 h2
    omega
  have hperm : (get_sorted_key_indices key).Perm (spec_sorted_key_indices key) := by
    refine (get_sorted_key_indices_perm key).trans ?_
    exact (List.mergeSort_perm (List.range key.length) _).symm
  exact ⟨@List.eq_of_perm_of_sorted _ (key_lex key) hanti _ _ hperm
      (sorted_key_indices_pairwise key) (spec_sorted_key_indices_pairwise key),
    get_sorted_key_indices_perm key⟩

theorem chunksOfGo_fuel_irrelevant (c : Nat) :
    ∀ (f1 : Nat) (l : List Nat) (f2 : Nat), l.length ≤ f1 → l.length ≤ f2 →
      chunksOfGo c f1 l = chunksOfGo c f2 l := by
  intro f1
  induction f1 with
  | zero =>
    intro l f2 h1 _
    have : l = [] := List.eq_nil_of_length_eq_zero (by omega)
    subst this
    cases f2 <;> rfl
  | succ g ih =>
    intro l f2 h1 h2
    cases l with
    | nil => cases f2 <;> rfl
    | cons x xs =>
      cases f2 with
      | zero => simp at h2
      | succ g2 =>
        show List.take c (x :: xs) :: chunksOfGo c g (List.drop (c - 1) xs) =
          List.take c (x :: xs) :: chunksOfGo c g2 (List.drop (c - 1) xs)
        rw [ih (List.drop (c - 1) xs) g2
          (by rw [List.length_drop]; simp at h1; omega)
          (by rw [List.length_drop]; simp at h2; omega)]

theorem chunksOf_cons (c : Nat) (x : Nat) (xs : List Nat) :
    chunksOf c (x :: xs) =
      List.take c (x :: xs) :: chunksOf c (List.drop (c - 1) xs) := by
  show chunksOfGo c (xs.length + 1) (x :: xs) = _
  show List.take c (x :: xs) :: chunksOfGo c xs.length (List.drop (c - 1) xs) = _
  rw [chunksOfGo_fuel_irrelevant c xs.length (List.drop (c - 1) xs)
    (List.drop (c - 1) xs).length (by rw [List.length_drop]; omega) (Nat.le_refl _)]
  rfl

theorem chunksOf_exact (k : Nat) (hk : 1 ≤ k) :
    ∀ (r : Nat) (data : List Nat), data.length = r * k →
      (chunksOf k data).length = r ∧
      (∀ row ∈ chunksOf k data, row.length = k) ∧
      (chunksOf k data).flatten = data := by
  intro r
  induction r with
  | zero =>
    intro data h
    have : data = [] := List.eq_nil_of_length_eq_zero (by simpa using h)
    subst this
    exact ⟨rfl, by simp [chunksOf, chunksOfGo], rfl⟩
  | succ r ih =>
    intro data h
    cases data with
    | nil =>
      exfalso
      have : (r + 1) * k ≠ 0 := Nat.mul_ne_zero (by omega) (by omega)
      simp at h
      omega
    | cons x xs =>
      have hlen : (x :: xs).length = (r + 1) * k := h
      have hd : List.drop (k - 1) xs = List.drop k (x :: xs) := by
        conv_rhs => rw [show k = (k - 1) + 1 by omega]
        rw [List.drop_succ_cons]
      have hkle : k ≤ (x :: xs).length := by
        rw [hlen, Nat.succ_mul]
        omega
      have hdroplen : (List.drop k (x :: xs)).length = r * k := by
        rw [List.length_drop, hlen, Nat.succ_mul]
        omega
      have htake : (List.take k (x :: xs)).length = k := by
        rw [List.length_take]
        omega
      obtain ⟨ih1, ih2, ih3⟩ := ih (List.drop k (x :: xs)) hdroplen
      rw [chunksOf_cons, hd]
      refine ⟨by simp [ih1], ?_, ?_⟩
      · intro row hrow
        rcases List.mem_cons.mp hrow with he | h'
        · rw [he, htake]
        · exact ih2 row h'
      · rw [List.flatten_cons, ih3, List.take_append_drop]

theorem create_matrix_eq_chunks (k r : Nat) (hk : 1 ≤ k) (data : List Nat)
    (h : data.length = r * k) :
    create_transposition_matrix data k = chunksOf k data := by
  unfold create_transposition_matrix
  obtain ⟨_, h2, _⟩ := chunksOf_exact k hk r data h
  conv_rhs => rw [← List.map_id (chunksOf k data)]
  apply List.map_congr_left
  intro chunk hc
  rw [h2 chunk hc]
  simp

theorem apply_padding_ok_inv (data : List Nat) (block_size : Nat) (res : List Nat)
    (h : Pkcs7Padding.apply_padding data block_size = Except.ok res) :
    data ≠ [] ∧ 1 ≤ block_size ∧ block_size ≤ 255 ∧
      res = data ++ List.replicate
        (block_size - (data.length % 2 ^ 32) % block_size)
        (block_size - (data.length % 2 ^ 32) % block_size) := by
  unfold Pkcs7Padding.apply_padding at h
  by_cases hemp : data.isEmpty = true
  · rw [if_pos hemp] at h
    exact absurd h (by simp)
  · rw [if_neg hemp] at h
    by_cases hbs : (block_size == 0 || block_size > 255) = true
    · rw [if_pos hbs] at h
      exact absurd h (by simp)
    · rw [if_neg hbs] at h
      simp only [Bool.or_eq_true, beq_iff_eq, decide_eq_true_eq] at hbs
      have hb1 : 1 ≤ block_size := by omega
      have hb2 : block_size ≤ 255 := by omega
      have hmod : (data.length % 2 ^ 32) % block_size < block_size :=
        Nat.mod_lt _ (by omega)
      refine ⟨fun hnil => hemp (by simp [hnil]), hb1, hb2, ?_⟩
      rw [Nat.mod_eq_of_lt
        (by omega : block_size - (data.length % 2 ^ 32) % block_size < 256)] at h
      injection h with h'
      exact h'.symm

theorem padded_length_eq (P : List Nat) (k : Nat) (hk : 1 ≤ k) :
    P.length + (k - P.length % k) = k * (P.length / k + 1) := by
  have hmod : P.length % k < k := Nat.mod_lt _ (by omega)
  have hdm := Nat.div_add_mod P.length k
  rw [Nat.mul_add, Nat.mul_one]
  generalize hK : k * (P.length / k) = K at hdm ⊢
  generalize hm : P.length % k = m at hdm hmod ⊢
  omega

theorem padded_length_mod (P : List Nat) (k : Nat) (hk : 1 ≤ k) :
    (P.length + (k - P.length % k)) % k = 0 := by
  rw [padded_length_eq P k hk]
  exact Nat.mul_mod_right k _

theorem strip_padding_of_padded (P : List Nat) (k N : Nat)
    (hP : P ≠ []) (hk1 : 1 ≤ k) (hk255 : k ≤ 255)
    (hN : N = k - P.length % k) :
    Pkcs7Padding.strip_padding (P ++ List.replicate N N) k = some (Except.ok P) := by
  set data := P ++ List.replicate N N with hdata
  have hmod : P.length % k < k := Nat.mod_lt _ (by omega)
  have hN1 : 1 ≤ N := by omega
  have hNk : N ≤ k := by omega
  have hlen : data.length = P.length + N := by simp [hdata]
  have hmod0 : data.length % k = 0 := by
    rw [hlen, hN]
    exact padded_length_mod P k hk1
  have hne : data ≠ [] := by
    intro h
    have h2 := congrArg List.length h
    rw [hlen] at h2
    simp at h2
    omega
  have hget : data[data.length - 1]? = some N := by
    rw [hdata, List.getElem?_append_right (by rw [← hdata, hlen]; omega),
      List.getElem?_replicate, if_pos (by rw [← hdata, hlen]; omega)]
  have hdrop : List.drop (data.length - N) data = List.replicate N N := by
    rw [hlen, Nat.add_sub_cancel, hdata]
    exact List.drop_left P _
  have htake : List.take (data.length - N) data = P := by
    rw [hlen, Nat.add_sub_cancel, hdata]
    exact List.take_left P _
  have hk256 : k % 256 = k := Nat.mod_eq_of_lt (by omega)
  unfold Pkcs7Padding.strip_padding
  rw [if_neg (not_isEmpty_of_ne_nil hne),
    if_neg (by simp only [Bool.or_eq_true, beq_iff_eq, decide_eq_true_eq]; omega),
    if_neg (by simp [hmod0]), hk256]
  unfold Pkcs7Padding.validate_padding
  rw [hget]
  dsimp only
  rw [if_neg (by simp only [Bool.or_eq_true, beq_iff_eq, decide_eq_true_eq]; omega),
    if_neg (by omega),
    if_pos (by
      rw [hdrop]
      simp [List.all_eq_true, List.mem_replicate])]
  dsimp only
  rw [if_neg (by omega), htake]

theorem flatten_getD (L : List (List Nat)) (k : Nat) (hk : ∀ row ∈ L, row.length = k) :
    ∀ (i j : Nat), i < L.length → j < k →
      L.flatten.getD (i * k + j) 0 = mget L i j := by
  induction L with
  | nil => intro i j hi _; simp at hi
  | cons row rest ih =>
    intro i j hi hj
    have hrow : row.length = k := hk row (by simp)
    cases i with
    | zero =>
      rw [List.flatten_cons, Nat.zero_mul, Nat.zero_add,
        List.getD_eq_getElem?_getD, List.getElem?_append,
        if_pos (show (j : Nat) < row.length by omega),
        ← List.getD_eq_getElem?_getD]
      rfl
    | succ i' =>
      rw [List.flatten_cons, List.getD_eq_getElem?_getD,
        List.getElem?_append_right (by rw [hrow, Nat.succ_mul]; omega)]
      have hidx : (i' + 1) * k + j - row.length = i' * k + j := by
        rw [hrow, Nat.succ_mul]
        omega
      rw [hidx, ← List.getD_eq_getElem?_getD]
      exact ih (fun r hr => hk r (by simp [hr])) i' j (by simpa using hi) hj

theorem matrix_ext (A B : List (List Nat)) (r k : Nat)
    (hA : A.length = r) (hB : B.length = r)
    (hAr : ∀ row ∈ A, row.length = k) (hBr : ∀ row ∈ B, row.length = k)
    (h : ∀ a b, a < r → b < k → mget A a b = mget B a b) : A = B := by
  apply List.ext_getElem (by omega)
  intro i h1 h2
  apply List.ext_getElem
  · rw [hAr _ (List.getElem_mem h1), hBr _ (List.getElem_mem h2)]
  · intro j hj1 hj2
    have hj1' : j < k := by rw [← hAr _ (List.getElem_mem h1)]; exact hj1
    have hmg := h i j (by omega) hj1'
    unfold mget at hmg
    rw [List.getD_eq_getElem A [] h1, List.getD_eq_getElem B [] h2,
      List.getD_eq_getElem _ 0 hj1, List.getD_eq_getElem _ 0 hj2] at hmg
    exact hmg

theorem fill_rows_snd (msg : List Nat) (c : Nat) :
    ∀ (rows : List Nat) (M : List (List Nat)) (i : Nat),
      (TranspositionCipher.fill_rows msg c rows M i).2 = i + rows.length := by
  intro rows
  induction rows with
  | nil => intro M i; rfl
  | cons row rest ih =>
    intro M i
    simp only [TranspositionCipher.fill_rows]
    rw [ih]
    simp only [List.length_cons]
    omega

theorem fill_rows_shape (msg : List Nat) (c k : Nat) :
    ∀ (rows : List Nat) (M : List (List Nat)) (i : Nat),
      (∀ row ∈ M, row.length = k) →
      ((TranspositionCipher.fill_rows msg c rows M i).1.length = M.length ∧
        ∀ row ∈ (TranspositionCipher.fill_rows msg c rows M i).1, row.length = k) := by
  intro rows
  induction rows with
  | nil => intro M i h; exact ⟨rfl, h⟩
  | cons row rest ih =>
    intro M i hshape
    simp only [TranspositionCipher.fill_rows]
    by_cases hrow : row < M.length
    · have hnew : ((M.getD row []).set c (msg.getD i 0)).length = k := by
        rw [List.length_set, List.getD_eq_getElem M [] hrow]
        exact hshape _ (List.getElem_mem hrow)
      obtain ⟨ih1, ih2⟩ := ih (M.set row ((M.getD row []).set c (msg.getD i 0))) (i + 1)
        (fun r hr => by
          rcases List.mem_or_eq_of_mem_set hr with h | h
          · exact hshape r h
          · rw [h, hnew])
      exact ⟨by rw [ih1, List.length_set], ih2⟩
    · rw [List.set_eq_of_length_le (by omega)]
      exact ih M (i + 1) hshape

theorem fill_rows_append (msg : List Nat) (c : Nat) (l₁ l₂ : List Nat) :
    ∀ (M : List (List Nat)) (i : Nat),
      TranspositionCipher.fill_rows msg c (l₁ ++ l₂) M i =
        TranspositionCipher.fill_rows msg c l₂
          (TranspositionCipher.fill_rows msg c l₁ M i).1
          (TranspositionCipher.fill_rows msg c l₁ M i).2 := by
  induction l₁ with
  | nil => intro M i; rfl
  | cons row rest ih =>
    intro M i
    simp only [List.cons_append, TranspositionCipher.fill_rows]
    exact ih _ _

theorem fill_rows_range_mget (msg : List Nat) (c k : Nat) (hc : c < k) :
    ∀ (n : Nat) (M : List (List Nat)) (i : Nat),
      (∀ row ∈ M, row.length = k) → n ≤ M.length →
      ∀ a b, mget (TranspositionCipher.fill_rows msg c (List.range n) M i).1 a b =
        if a < n ∧ b = c then msg.getD (i + a) 0 else mget M a b := by
  intro n
  induction n with
  | zero =>
    intro M i _ _ a b
    rw [List.range_zero]
    simp only [TranspositionCipher.fill_rows]
    rw [if_neg (by omega)]
  | succ n ih =>
    intro M i hshape hn a b
    rw [List.range_succ, fill_rows_append]
    have hsnd : (TranspositionCipher.fill_rows msg c (List.range n) M i).2 = i + n := by
      rw [fill_rows_snd, List.length_range]
    obtain ⟨hlen', hshape'⟩ := fill_rows_shape msg c k (List.range n) M i hshape
    rw [hsnd]
    simp only [TranspositionCipher.fill_rows]
    set M' := (TranspositionCipher.fill_rows msg c (List.range n) M i).1 with hM'
    have haM : n < M'.length := by rw [hlen']; omega
    by_cases han : a = n
    · subst han
      unfold mget
      rw [getD_set_self M' a _ [] haM]
      by_cases hbc : b = c
      · subst hbc
        have hck : b < (M'.getD a []).length := by
          rw [List.getD_eq_getElem M' [] haM]
          rw [hshape' _ (List.getElem_mem haM)]
          exact hc
        rw [getD_set_self _ b _ 0 hck, if_pos ⟨by omega, rfl⟩]
      · rw [getD_set_ne _ c b _ 0 (fun he => hbc he.symm)]
        have := ih M i hshape (by omega) a b
        rw [← hM'] at this
        unfold mget at this
        rw [this, if_neg (by omega), if_neg (by rintro ⟨_, h3⟩; exact hbc h3)]
    · unfold mget
      rw [getD_set_ne M' n a _ [] (fun he => han he.symm)]
      have := ih M i hshape (by omega) a b
      rw [← hM'] at this
      unfold mget at this
      rw [this]
      by_cases h1 : a < n ∧ b = c
      · rw [if_pos h1, if_pos ⟨by omega, h1.2⟩]
      · rw [if_neg h1, if_neg (by rintro ⟨h2, h3⟩; exact h1 ⟨by omega, h3⟩)]

theorem fill_cols_shape (msg : List Nat) (r k : Nat) :
    ∀ (cols : List Nat) (M : List (List Nat)) (i : Nat),
      (∀ row ∈ M, row.length = k) →
      ((TranspositionCipher.fill_cols msg r cols M i).length = M.length ∧
        ∀ row ∈ TranspositionCipher.fill_cols msg r cols M i, row.length = k) := by
  intro cols
  induction cols with
  | nil => intro M i h; exact ⟨rfl, h⟩
  | cons c rest ih =>
    intro M i hshape
    simp only [TranspositionCipher.fill_cols]
    obtain ⟨h1, h2⟩ := fill_rows_shape msg c k (List.range r) M i hshape
    obtain ⟨ih1, ih2⟩ := ih (TranspositionCipher.fill_rows msg c (List.range r) M i).1
      (TranspositionCipher.fill_rows msg c (List.range r) M i).2 h2
    exact ⟨by rw [ih1, h1], ih2⟩

theorem fill_cols_mget (msg : List Nat) (r k : Nat) :
    ∀ (cols : List Nat) (M : List (List Nat)) (i : Nat),
      (∀ row ∈ M, row.length = k) → M.length = r → (∀ c ∈ cols, c < k) →
      cols.Nodup →
      ∀ a b, a < r →
        mget (TranspositionCipher.fill_cols msg r cols M i) a b =
          if b ∈ cols then msg.getD (i + (List.indexOf b cols) * r + a) 0
          else mget M a b := by
  intro cols
  induction cols with
  | nil =>
    intro M i _ _ _ _ a b _
    simp only [TranspositionCipher.fill_cols]
    rw [if_neg (by simp)]
  | cons c rest ih =>
    intro M i hshape hMr hcols hnd a b ha
    simp only [TranspositionCipher.fill_cols]
    have hsnd : (TranspositionCipher.fill_rows msg c (List.range r) M i).2 = i + r := by
      rw [fill_rows_snd, List.length_range]
    obtain ⟨hlen', hshape'⟩ := fill_rows_shape msg c k (List.range r) M i hshape
    rw [hsnd,
      ih (TranspositionCipher.fill_rows msg c (List.range r) M i).1 (i + r) hshape'
        (by rw [hlen', hMr]) (fun c' hc' => hcols c' (List.mem_cons_of_mem _ hc'))
        hnd.of_cons a b ha]
    by_cases hbr : b ∈ rest
    · rw [if_pos hbr, if_pos (List.mem_cons_of_mem _ hbr)]
      have hbc : b ≠ c := fun he => (List.nodup_cons.mp hnd).1 (he ▸ hbr)
      rw [List.indexOf_cons_ne rest (fun he => hbc he.symm)]
      congr 1
      rw [Nat.succ_mul]
      generalize List.indexOf b rest * r = Q
      omega
    · by_cases hbc : b = c
      · subst hbc
        rw [if_neg hbr,
          fill_rows_range_mget msg b k (hcols b (by simp)) r M i hshape (by omega) a b,
          if_pos ⟨ha, rfl⟩, if_pos (by simp), List.indexOf_cons_self]
        congr 1
        omega
      · rw [if_neg hbr,
          if_neg (by rw [List.mem_cons]; rintro (h | h); exact hbc h; exact hbr h),
          fill_rows_range_mget msg c k (hcols c (by simp)) r M i hshape (by omega) a b,
          if_neg (by rintro ⟨_, h3⟩; exact hbc h3)]

theorem get_sorted_key_indices_length (K : List Nat) :
    (get_sorted_key_indices K).length = K.length := by
  rw [(get_sorted_key_indices_perm K).length_eq, List.length_range]

theorem encrypt_eq (P K : List Nat) (hP : P ≠ []) (hP32 : P.length < 2 ^ 32)
    (hK : K ≠ []) (h255 : K.length ≤ 255) :
    TranspositionCipher.encrypt P K = Except.ok
      ((get_sorted_key_indices K).flatMap
        (fun index => (create_transposition_matrix
            (P ++ List.replicate (K.length - P.length % K.length)
              (K.length - P.length % K.length)) K.length).map
          (fun row => row.getD index 0))) := by
  have hk32 : K.length % 2 ^ 32 = K.length := Nat.mod_eq_of_lt (by omega)
  unfold TranspositionCipher.encrypt
  rw [if_neg (not_isEmpty_of_ne_nil hK), hk32,
    apply_padding_eq P K.length hP (by have := List.length_pos.mpr hK; omega) h255,
    Nat.mod_eq_of_lt hP32]

theorem flatMap_cols_length (perm : List Nat) (M : List (List Nat)) :
    (perm.flatMap (fun index => M.map (fun row => row.getD index 0))).length =
      perm.length * M.length := by
  induction perm with
  | nil => simp
  | cons c rest ih =>
    rw [List.flatMap_cons, List.length_append, List.length_map, ih, List.length_cons,
      Nat.succ_mul]
    generalize rest.length * M.length = Q
    omega

theorem flatMap_cols_getD (M : List (List Nat)) (r : Nat) (hM : M.length = r) :
    ∀ (perm : List Nat) (j a : Nat), j < perm.length → a < r →
      (perm.flatMap (fun index => M.map (fun row => row.getD index 0))).getD
          (j * r + a) 0 =
        mget M a (perm.getD j 0) := by
  intro perm
  induction perm with
  | nil => intro j a hj _; simp at hj
  | cons c rest ih =>
    intro j a hj ha
    rw [List.flatMap_cons]
    cases j with
    | zero =>
      rw [Nat.zero_mul, Nat.zero_add, List.getD_eq_getElem?_getD, List.getElem?_append,
        if_pos (by rw [List.length_map, hM]; omega),
        List.getElem?_eq_getElem (by rw [List.length_map, hM]; omega)]
      rw [List.getElem_map]
      simp only [Option.getD_some]
      unfold mget
      rw [List.getD_eq_getElem M [] (by omega)]
      rfl
    | succ j' =>
      rw [List.getD_eq_getElem?_getD,
        List.getElem?_append_right (by rw [List.length_map, hM, Nat.succ_mul]; omega)]
      have hidx : (j' + 1) * r + a - (M.map (fun row => row.getD c 0)).length =
          j' * r + a := by
        rw [List.length_map, hM, Nat.succ_mul]
        generalize j' * r = Q
        omega
      rw [hidx, ← List.getD_eq_getElem?_getD]
      exact ih j' a (by simpa using hj) ha

/-- Claim C5, amended: whenever transposition `encrypt(P, K)` succeeds and
both `len(P)` and `len(K)` are below `2 ^ 32` (so neither the
`data.len() as u32` nor the `key.len() as u32` cast truncates), the
ciphertext length equals the padded-plaintext length
`len(P) + (len(K) - len(P) % len(K))`, which is the smallest multiple of
`len(K)` strictly greater than `len(P)`, namely
`len(K) * (len(P) / len(K) + 1)`. -/
theorem encrypt_length (P K C : List Nat)
    (hP32 : P.length < 2 ^ 32) (hK32 : K.length < 2 ^ 32)
    (h : TranspositionCipher.encrypt P K = Except.ok C) :
    C.length = P.length + (K.length - P.length % K.length) ∧
    C.length = K.length * (P.length / K.length + 1) := by
  unfold TranspositionCipher.encrypt at h
  rw [Nat.mod_eq_of_lt hK32] at h
  by_cases hK : K.isEmpty = true
  · rw [if_pos hK] at h
    exact absurd h (by simp)
  · rw [if_neg hK] at h
    cases happ : Pkcs7Padding.apply_padding P K.length with
    | error e => rw [happ] at h; exact absurd h (by simp)
    | ok padded =>
      rw [happ] at h
      dsimp only at h
      obtain ⟨hPne, hk1, hk255, hpadded⟩ := apply_padding_ok_inv P K.length padded happ
      rw [Nat.mod_eq_of_lt hP32] at hpadded
      injection h with h'
      have hplen : padded.length = P.length + (K.length - P.length % K.length) := by
        rw [hpadded]
        simp
      have hmod0 : padded.length % K.length = 0 := by
        rw [hplen]
        exact padded_length_mod P _ hk1
      have hrk : padded.length = (padded.length / K.length) * K.length :=
        (Nat.div_mul_cancel (Nat.dvd_of_mod_eq_zero hmod0)).symm
      obtain ⟨hc1, _, _⟩ := chunksOf_exact K.length hk1 (padded.length / K.length) padded hrk
      have hmatlen : (create_transposition_matrix padded K.length).length =
          padded.length / K.length := by
        rw [create_matrix_eq_chunks K.length _ hk1 padded hrk]
        exact hc1
      have hCl2 : C.length = padded.length := by
        rw [← h', flatMap_cols_length, hmatlen, get_sorted_key_indices_length]
        exact (Nat.mul_div_cancel' (Nat.dvd_of_mod_eq_zero hmod0))
      constructor
      · rw [hCl2, hplen]
      · rw [hCl2, hplen, padded_length_eq P _ hk1]

/-- Witness for C5: `encrypt([1,2,3], [2,1])` yields the 4-byte ciphertext
`[2,1,1,3]`, one padding byte longer than the plaintext. -/
theorem encrypt_length_witness :
    ([2, 1, 1, 3] : List Nat).length =
      ([1, 2, 3] : List Nat).length +
        (([2, 1] : List Nat).length -
          ([1, 2, 3] : List Nat).length % ([2, 1] : List Nat).length) ∧
    ([2, 1, 1, 3] : List Nat).length =
      ([2, 1] : List Nat).length *
        (([1, 2, 3] : List Nat).length / ([2, 1] : List Nat).length + 1) :=
  encrypt_length [1, 2, 3] [2, 1] [2, 1, 1, 3] (by decide) (by decide) (by rfl)

theorem decrypt_reassembles (K : List Nat) (hK : K ≠ []) (M : List (List Nat)) (r : Nat)
    (hMlen : M.length = r) (hMrows : ∀ row ∈ M, row.length = K.length) :
    TranspositionCipher.decrypt
        ((get_sorted_key_indices K).flatMap
          (fun index => M.map (fun row => row.getD index 0))) K =
      match Pkcs7Padding.strip_padding M.flatten (K.length % 2 ^ 32) with
      | none => none
      | some (Except.error e) =>
          some (Except.error (CipherOperationError.PaddingValidationError e))
      | some (Except.ok plain) => some (Except.ok plain) := by
  have hk1 : 1 ≤ K.length := List.length_pos.mpr hK
  unfold TranspositionCipher.decrypt
  rw [if_neg (not_isEmpty_of_ne_nil hK)]
  dsimp only
  set perm := get_sorted_key_indices K with hperm
  have hpermP : perm.Perm (List.range K.length) := get_sorted_key_indices_perm K
  have hpermlen : perm.length = K.length := get_sorted_key_indices_length K
  have hpermmem : ∀ c ∈ perm, c < K.length := fun c hc =>
    List.mem_range.mp (hpermP.subset hc)
  have hpermnd : perm.Nodup := hpermP.nodup_iff.mpr (List.nodup_range K.length)
  set C := perm.flatMap (fun index => M.map (fun row => row.getD index 0)) with hC
  have hClen : C.length = K.length * r := by
    rw [hC, flatMap_cols_length, hpermlen, hMlen]
  have hCmod : C.length % K.length = 0 := by
    rw [hClen]
    exact Nat.mul_mod_right _ _
  rw [if_neg (by simp [hCmod])]
  have hCdiv : C.length / K.length = r := by
    rw [hClen]
    exact Nat.mul_div_cancel_left r (by omega)
  rw [hCdiv]
  have hshape0 : ∀ row ∈ List.replicate r (List.replicate K.length 0),
      row.length = K.length := by
    intro row hrow
    rw [List.eq_of_mem_replicate hrow, List.length_replicate]
  have hfill : TranspositionCipher.fill_cols C r perm
      (List.replicate r (List.replicate K.length 0)) 0 = M := by
    obtain ⟨hl, hr2⟩ := fill_cols_shape C r K.length perm
      (List.replicate r (List.replicate K.length 0)) 0 hshape0
    apply matrix_ext _ M r K.length (by rw [hl, List.length_replicate]) hMlen hr2 hMrows
    intro a b ha hb
    have hbmem : b ∈ perm := hpermP.mem_iff.mpr (List.mem_range.mpr hb)
    rw [fill_cols_mget C r K.length perm _ 0 hshape0 (by rw [List.length_replicate])
      hpermmem hpermnd a b ha, if_pos hbmem, Nat.zero_add]
    have hidx : List.indexOf b perm < perm.length := List.indexOf_lt_length.mpr hbmem
    rw [hC, flatMap_cols_getD M r hMlen perm (List.indexOf b perm) a hidx ha]
    congr 1
    rw [List.getD_eq_getElem perm 0 hidx]
    exact List.getElem_indexOf hidx
  rw [hfill]

/-- Claim C1, amended: for every non-empty plaintext `P` shorter than
`2 ^ 32` bytes and every non-empty key `K` whose length is at most `255`,
the transposition cipher round-trips: `decrypt(encrypt(P, K), K)` succeeds
and returns `P`. The key-length bound is forced by the padding layer,
whose block size must fit in a byte (`apply_padding` rejects block sizes
above `255`); the plaintext bound is forced by the `data.len() as u32`
truncation, under which a longer plaintext is padded to a length that is
not a multiple of the key length, so decryption reassembles the matrix's
zero fill and fails padding validation. -/
theorem transposition_roundtrip_ok (P K : List Nat) (hP : P ≠ [])
    (hP32 : P.length < 2 ^ 32) (hK : K ≠ []) (h255 : K.length ≤ 255) :
    TranspositionCipher.roundtrip P K = some (Except.ok P) := by
  have hk1 : 1 ≤ K.length := List.length_pos.mpr hK
  have hmodlt : P.length % K.length < K.length := Nat.mod_lt _ (by omega)
  set N := K.length - P.length % K.length with hN
  set padded := P ++ List.replicate N N with hpad
  have hplen : padded.length = P.length + N := by simp [hpad]
  have hmod0 : padded.length % K.length = 0 := by
    rw [hplen, hN]
    exact padded_length_mod P K.length hk1
  have hrk : padded.length = (padded.length / K.length) * K.length :=
    (Nat.div_mul_cancel (Nat.dvd_of_mod_eq_zero hmod0)).symm
  obtain ⟨hc1, hc2, hc3⟩ :=
    chunksOf_exact K.length hk1 (padded.length / K.length) padded hrk
  have hMeq : create_transposition_matrix padded K.length = chunksOf K.length padded :=
    create_matrix_eq_chunks K.length _ hk1 padded hrk
  unfold TranspositionCipher.roundtrip
  rw [encrypt_eq P K hP hP32 hK h255]
  show TranspositionCipher.decrypt
      ((get_sorted_key_indices K).flatMap
        (fun index => (create_transposition_matrix padded K.length).map
          (fun row => row.getD index 0))) K = some (Except.ok P)
  rw [decrypt_reassembles K hK (create_transposition_matrix padded K.length)
      (padded.length / K.length) (by rw [hMeq]; exact hc1) (by rw [hMeq]; exact hc2),
    hMeq, hc3, Nat.mod_eq_of_lt (show K.length < 2 ^ 32 by omega),
    strip_padding_of_padded P K.length N hP hk1 h255 hN]

/-- Witness for the amended C1 at `P = [10, 20, 30]`, `K = [2, 1]`. -/
theorem transposition_roundtrip_ok_witness :
    TranspositionCipher.roundtrip [10, 20, 30] [2, 1] = some (Except.ok [10, 20, 30]) :=
  transposition_roundtrip_ok [10, 20, 30] [2, 1] (by decide) (by decide) (by decide)
    (by decide)

set_option maxRecDepth 10000 in
/-- Counterexample to claim C1 as stated: with the non-empty plaintext
`[1]` and the non-empty 256-byte key `replicate 256 0`, encryption already
fails (the padding layer rejects block sizes above 255), so
`decrypt(encrypt(P, K), K)` does not succeed and does not return `P`. -/
theorem transposition_roundtrip_cex :
    TranspositionCipher.roundtrip [1] (List.replicate 256 0) =
      some (Except.error (CipherOperationError.PaddingValidationError
        (PaddingValidationError.ParameterError
          ("Block size must be greater than 0 and smaller than 256")))) ∧
    TranspositionCipher.roundtrip [1] (List.replicate 256 0) ≠
      some (Except.ok [1]) := by
  have h1 : TranspositionCipher.roundtrip [1] (List.replicate 256 0) =
      some (Except.error (CipherOperationError.PaddingValidationError
        (PaddingValidationError.ParameterError
          ("Block size must be greater than 0 and smaller than 256")))) := by rfl
  refine ⟨h1, ?_⟩
  rw [h1]
  simp

theorem chunksOf_length (k : Nat) (hk : 1 ≤ k) :
    ∀ (n : Nat) (data : List Nat), data.length ≤ n →
      (chunksOf k data).length = (data.length + k - 1) / k := by
  intro n
  induction n with
  | zero =>
    intro data h
    have hnil : data = [] := List.eq_nil_of_length_eq_zero (by omega)
    subst hnil
    show (0 : Nat) = (0 + k - 1) / k
    rw [Nat.zero_add, Nat.div_eq_of_lt (by omega)]
  | succ n ih =>
    intro data h
    cases data with
    | nil =>
      show (0 : Nat) = (0 + k - 1) / k
      rw [Nat.zero_add, Nat.div_eq_of_lt (by omega)]
    | cons x xs =>
      rw [chunksOf_cons]
      have hd : List.drop (k - 1) xs = List.drop k (x :: xs) := by
        conv_rhs => rw [show k = (k - 1) + 1 by omega]
        rw [List.drop_succ_cons]
      rw [hd, List.length_cons,
        ih (List.drop k (x :: xs))
          (by rw [List.length_drop]; simp only [List.length_cons] at h ⊢; omega),
        List.length_drop, List.length_cons]
      have h1 : xs.length + 1 + k - 1 = xs.length + k := by omega
      rw [h1, Nat.add_div_right _ (by omega)]
      congr 1
      by_cases hLk : k < xs.length + 1
      · congr 1
        omega
      · rw [show xs.length + 1 - k + k - 1 = k - 1 by omega,
          Nat.div_eq_of_lt (by omega), Nat.div_eq_of_lt (by omega)]

theorem cex_matrix_length : (create_transposition_matrix
    (List.replicate (2 ^ 32) 1 ++ List.replicate 3 3) 3).length =
    ((List.replicate (2 ^ 32) (1 : Nat) ++ List.replicate 3 3).length + 3 - 1) / 3 := by
  unfold create_transposition_matrix
  rw [List.length_map,
    chunksOf_length 3 (by decide)
      (List.replicate (2 ^ 32) 1 ++ List.replicate 3 3).length
      (List.replicate (2 ^ 32) 1 ++ List.replicate 3 3) (Nat.le_refl _)]

theorem cex_ciphertext_length : ((get_sorted_key_indices [1, 2, 3]).flatMap
      (fun index => (create_transposition_matrix
        (List.replicate (2 ^ 32) 1 ++ List.replicate 3 3) 3).map
        (fun row => row.getD index 0))).length = 2 ^ 32 + 5 := by
  rw [flatMap_cols_length
      (get_sorted_key_indices [1, 2, 3])
      (create_transposition_matrix (List.replicate (2 ^ 32) 1 ++ List.replicate 3 3) 3),
    cex_matrix_length, get_sorted_key_indices_length, List.length_append,
    List.length_replicate, List.length_replicate]
  decide

/-- Counterexample to claim C5 as stated: at `P = replicate (2 ^ 32) 1`
and `K = [1, 2, 3]`, encryption succeeds — the 32-bit truncated length has
remainder `0` modulo `3`, so three padding bytes are appended and the
padded length `2 ^ 32 + 3` is not a multiple of `3` — the matrix gains a
zero-filled final row, and the ciphertext length is `2 ^ 32 + 5`, not the
`len(P) + (len(K) - len(P) % len(K)) = 2 ^ 32 + 2` the claim asserts. -/
theorem encrypt_length_cex :
    ∃ C, TranspositionCipher.encrypt (List.replicate (2 ^ 32) 1) [1, 2, 3] =
        Except.ok C ∧
      C.length = 2 ^ 32 + 5 ∧
      (List.replicate (2 ^ 32) (1 : Nat)).length +
        (([1, 2, 3] : List Nat).length -
          (List.replicate (2 ^ 32) (1 : Nat)).length %
            ([1, 2, 3] : List Nat).length) = 2 ^ 32 + 2 ∧
      (2 ^ 32 + 5 : Nat) ≠ 2 ^ 32 + 2 := by
  have hPlen : (List.replicate (2 ^ 32) (1 : Nat)).length = 2 ^ 32 :=
    List.length_replicate _ _
  have hPne : (List.replicate (2 ^ 32) (1 : Nat)) ≠ [] := by
    intro h
    have h2 := congrArg List.length h
    rw [hPlen] at h2
    exact absurd h2 (by decide)
  have happ : Pkcs7Padding.apply_padding (List.replicate (2 ^ 32) 1) 3 =
      Except.ok (List.replicate (2 ^ 32) 1 ++ List.replicate 3 3) := by
    rw [apply_padding_eq _ 3 hPne (by decide) (by decide), hPlen]
    norm_num
  refine ⟨(get_sorted_key_indices [1, 2, 3]).flatMap
      (fun index => (create_transposition_matrix
        (List.replicate (2 ^ 32) 1 ++ List.replicate 3 3) 3).map
        (fun row => row.getD index 0)), ?_, ?_, ?_, by decide⟩
  · unfold TranspositionCipher.encrypt
    rw [if_neg (by decide),
      show ([1, 2, 3] : List Nat).length % 2 ^ 32 = 3 from by decide, happ]
    dsimp only
    rfl
  · exact cex_ciphertext_length
  · rw [hPlen]
    decide
